import Mathlib

/-!
Verification of the `reqwest-deprecation` library (src/lib.rs).

The library extracts structured deprecation metadata from an HTTP response's
headers: the `Deprecation` header (literal `true` or an RFC 2822 date) and
`Link` headers carrying the relation `rel="deprecation"`.

This file is a shallow embedding of the two functions of the crate:
`parse_deprecation_link` and `ResponseExt::deprecation`, together with the
header-map operations of the `http` crate that they call
(`HeaderMap::get`, `HeaderMap::get_all`, `HeaderValue::to_str`).
Strings are modelled as `List Char` internally so that everything computes by
structural recursion; header values are modelled as raw byte sequences, since
`HeaderValue` may hold bytes that are not visible ASCII.  The RFC 2822 date
parser of the external `time` crate is not part of this repository; the
extractor is therefore parameterised by an abstract `dateParse` function.
-/

namespace ReqwestDeprecation

/-- Prepends a character to the first field of a split result, used by
`splitOnChar` to build fields right-to-left. -/
def consField (x : Char) : List (List Char) → List (List Char)
  | [] => [[x]]
  | y :: ys => (x :: y) :: ys

/-- Mirrors Rust `str::split(c)` on a character list: the empty input yields
one empty field, and a trailing separator yields a trailing empty field. -/
def splitOnChar (c : Char) : List Char → List (List Char)
  | [] => [[]]
  | x :: xs => if x = c then [] :: splitOnChar c xs else consField x (splitOnChar c xs)

/-- Mirrors Rust `str::trim`: removes whitespace from both ends. -/
def trimChars (l : List Char) : List Char :=
  ((l.dropWhile Char.isWhitespace).reverse.dropWhile Char.isWhitespace).reverse

/-- Mirrors Rust `str::trim_start_matches(c)`: removes every leading
occurrence of `c`. -/
def trimStartMatches (c : Char) (l : List Char) : List Char :=
  l.dropWhile (fun x => x == c)

/-- Mirrors Rust `str::trim_end_matches(c)`: removes every trailing
occurrence of `c`. -/
def trimEndMatches (c : Char) (l : List Char) : List Char :=
  (l.reverse.dropWhile (fun x => x == c)).reverse

/-- The parameter-scanning loop of `parse_deprecation_link` (src/lib.rs,
lines 57-64): each segment is split on `=` and must yield exactly two parts
(`try_into` into `[&str; 2]`, anything else aborts with `None`); the loop
returns the URL on the first segment equal to `rel="deprecation"`. -/
def linkLoop (url : List Char) : List (List Char) → Option (List Char)
  | [] => none
  | p :: rest =>
    match splitOnChar '=' p with
    | [key, val] =>
        if key = "rel".data ∧ val = "\"deprecation\"".data then some url
        else linkLoop url rest
    | _ => none

/-- Shallow embedding of `parse_deprecation_link` (src/lib.rs, lines 52-65):
the input is split on `;` with each part trimmed; the first part, with all
leading `<` and trailing `>` stripped, is the candidate URL; the remaining
parts are scanned by `linkLoop`. -/
def parse_deprecation_link (input : String) : Option String :=
  match (splitOnChar ';' input.data).map trimChars with
  | [] => none
  | first :: rest =>
      (linkLoop (trimEndMatches '>' (trimStartMatches '<' first)) rest).map String.mk

/-- An HTTP header value: an arbitrary byte sequence, as in the `http`
crate's `HeaderValue` (which may hold non-ASCII bytes such as obs-text). -/
structure HeaderValue where
  bytes : List Nat
deriving DecidableEq

/-- Byte sequence of an ASCII string, used for the comparison
`value == "true"` (the `http` crate compares a `HeaderValue` to a `&str` by
bytes). -/
def strBytes (s : String) : List Nat := s.data.map Char.toNat

/-- A header value built from an ASCII string. -/
def hv (s : String) : HeaderValue := ⟨strBytes s⟩

/-- Visible-ASCII test on a byte, as in the `http` crate's
`HeaderValue::to_str` (which accepts bytes 32..126 and horizontal tab). -/
def visibleByte (b : Nat) : Bool := (32 ≤ b && b < 127) || b == 9

/-- Mirrors `HeaderValue::to_str`: succeeds exactly when every byte is
visible ASCII, returning the value as a string; fails otherwise. -/
def toStr? (v : HeaderValue) : Option String :=
  if v.bytes.all visibleByte then some (String.mk (v.bytes.map Char.ofNat)) else none

/-- ASCII lowercasing of one character, for case-insensitive header-name
comparison. -/
def lowerChar (c : Char) : Char :=
  if 65 ≤ c.toNat ∧ c.toNat ≤ 90 then Char.ofNat (c.toNat + 32) else c

/-- Case-insensitive header-name equality, as for the `http` crate's
`HeaderName`. -/
def nameEq (a b : String) : Bool := a.data.map lowerChar == b.data.map lowerChar

/-- A response's header set: name/value pairs in insertion order.  Mirrors
the multimap view of `http::HeaderMap` that the crate uses. -/
abbrev Headers := List (String × HeaderValue)

/-- Mirrors `HeaderMap::get`: the first value whose name matches
case-insensitively. -/
def getHeader : Headers → String → Option HeaderValue
  | [], _ => none
  | (k, v) :: rest, n => if nameEq k n then some v else getHeader rest n

/-- Mirrors `HeaderMap::get_all(..).iter()`: every value whose name matches,
in occurrence order. -/
def getAll : Headers → String → List HeaderValue
  | [], _ => []
  | (k, v) :: rest, n => if nameEq k n then v :: getAll rest n else getAll rest n

/-- One step of the `find_map` closure over `Link` values (src/lib.rs,
lines 23-28): convert the raw value to a string — a failure makes this
occurrence a non-match via the `?` inside the closure — then run
`parse_deprecation_link` and convert to an owned string. -/
def linkOf (v : HeaderValue) : Option String :=
  match toStr? v with
  | none => none
  | some s => parse_deprecation_link s

/-- Mirrors `Iterator::find_map` over the `Link` values: the first value on
which `linkOf` succeeds wins. -/
def findLink : List HeaderValue → Option String
  | [] => none
  | v :: rest =>
    match linkOf v with
    | some u => some u
    | none => findLink rest

/-- Mirrors `const HEADER_NAME: &str = "Deprecation"`. -/
def HEADER_NAME : String := "Deprecation"

/-- The extracted record, mirroring `struct Deprecation`.  The timestamp's
`OffsetDateTime` is modelled abstractly as `Int` (an instant). -/
structure Deprecation where
  timestamp : Option Int
  deprecation_link : Option String
deriving DecidableEq

/-- Shallow embedding of `ResponseExt::deprecation` (src/lib.rs,
lines 20-47).  `dateParse` stands for
`OffsetDateTime::parse(_, Rfc2822)` of the external `time` crate, which is
not code of this repository: the extractor is parameterised by it.  The
steps follow the source exactly: look up the `Deprecation` header (absence
aborts with `None`); scan all `Link` values for the first deprecation link;
if the value's bytes equal `"true"` return a record with no timestamp;
otherwise convert the value to a string (a failure here aborts the whole
extraction via `?`) and record the date-parse outcome, successful or not. -/
def deprecation (dateParse : String → Option Int) (hs : Headers) : Option Deprecation :=
  match getHeader hs HEADER_NAME with
  | none => none
  | some value =>
    let deprecation_link := findLink (getAll hs "Link")
    if value.bytes = strBytes "true" then
      some ⟨none, deprecation_link⟩
    else
      match toStr? value with
      | none => none
      | some s => some ⟨dateParse s, deprecation_link⟩

/-! ### Helper lemmas about the splitting and trimming primitives -/

theorem consField_ne_nil (x : Char) : ∀ l : List (List Char), consField x l ≠ []
  | [] => by simp [consField]
  | _ :: _ => by simp [consField]

theorem splitOnChar_ne_nil (c : Char) : ∀ l : List Char, splitOnChar c l ≠ []
  | [] => by simp [splitOnChar]
  | x :: xs => by
      by_cases hx : x = c
      · simp only [splitOnChar]
        rw [if_pos hx]
        simp
      · simp only [splitOnChar]
        rw [if_neg hx]
        exact consField_ne_nil x _

theorem consField_append (x : Char) (bs : List (List Char)) :
    ∀ as : List (List Char), as ≠ [] → consField x (as ++ bs) = consField x as ++ bs
  | [], h => absurd rfl h
  | _ :: _, _ => rfl

theorem splitOnChar_sep (c : Char) (t : List Char) :
    ∀ l : List Char, c ∉ l → splitOnChar c (l ++ c :: t) = l :: splitOnChar c t
  | [], _ => by simp [splitOnChar]
  | x :: xs, h => by
      have hx : ¬(x = c) := by
        intro hh
        subst hh
        exact h (List.mem_cons_self x xs)
      have hxs : c ∉ xs := fun hh => h (List.mem_cons_of_mem x hh)
      show splitOnChar c (x :: (xs ++ c :: t)) = (x :: xs) :: splitOnChar c t
      simp only [splitOnChar]
      rw [if_neg hx, splitOnChar_sep c t xs hxs]
      rfl

theorem splitOnChar_append_last (c : Char) : ∀ l : List Char,
    splitOnChar c (l ++ [c]) = splitOnChar c l ++ [[]]
  | [] => by simp [splitOnChar]
  | x :: xs => by
      by_cases hx : x = c
      · show splitOnChar c (x :: (xs ++ [c])) = splitOnChar c (x :: xs) ++ [[]]
        simp only [splitOnChar]
        rw [if_pos hx, if_pos hx, splitOnChar_append_last c xs]
        rfl
      · show splitOnChar c (x :: (xs ++ [c])) = splitOnChar c (x :: xs) ++ [[]]
        simp only [splitOnChar]
        rw [if_neg hx, if_neg hx, splitOnChar_append_last c xs]
        exact consField_append x [[]] (splitOnChar c xs) (splitOnChar_ne_nil c xs)

theorem dropWhile_eq_self_of_all {p : Char → Bool} :
    ∀ l : List Char, (∀ x ∈ l, p x = false) → l.dropWhile p = l
  | [], _ => rfl
  | x :: xs, h => by
      have hx : p x = false := h x (List.mem_cons_self x xs)
      simp [List.dropWhile, hx]

theorem trimChars_eq_self {l : List Char} (h : ∀ x ∈ l, x.isWhitespace = false) :
    trimChars l = l := by
  unfold trimChars
  rw [dropWhile_eq_self_of_all l h,
      dropWhile_eq_self_of_all l.reverse (fun x hx => h x (List.mem_reverse.mp hx)),
      List.reverse_reverse]

theorem linkLoop_append_nil (url : List Char) :
    ∀ params : List (List Char), linkLoop url (params ++ [[]]) = linkLoop url params
  | [] => rfl
  | p :: ps => by
      show linkLoop url (p :: (ps ++ [[]])) = linkLoop url (p :: ps)
      simp only [linkLoop]
      cases hsp : splitOnChar '=' p with
      | nil => rfl
      | cons k tl =>
        cases tl with
        | nil => rfl
        | cons v tl2 =>
          cases tl2 with
          | nil =>
            change (if k = "rel".data ∧ v = "\"deprecation\"".data then some url
                else linkLoop url (ps ++ [[]]))
              = if k = "rel".data ∧ v = "\"deprecation\"".data then some url
                else linkLoop url ps
            by_cases hm : k = "rel".data ∧ v = "\"deprecation\"".data
            · rw [if_pos hm, if_pos hm]
            · rw [if_neg hm, if_neg hm, linkLoop_append_nil url ps]
          | cons w tl3 => rfl

/-- Boolean presence condition on the looked-up `Deprecation` value: the
extraction yields a record exactly when the header is there and its value is
either the bytes of `"true"` or convertible to a string. -/
def presentCond : Option HeaderValue → Bool
  | none => false
  | some v => decide (v.bytes = strBytes "true") || (toStr? v).isSome

theorem deprecation_isSome_eq (dateParse : String → Option Int) (hs : Headers) :
    (deprecation dateParse hs).isSome = presentCond (getHeader hs HEADER_NAME) := by
  unfold deprecation presentCond
  cases getHeader hs HEADER_NAME with
  | none => rfl
  | some v =>
    by_cases hb : v.bytes = strBytes "true"
    · simp [hb]
    · cases hts : toStr? v with
      | none => simp [hb, hts]
      | some s => simp [hb, hts]

theorem toStr_some_eq {v : HeaderValue} {s : String} (h : toStr? v = some s) :
    s = String.mk (v.bytes.map Char.ofNat) := by
  unfold toStr? at h
  split at h
  · exact (Option.some.inj h).symm
  · cases h

theorem bytes_ne_true_of_str {v : HeaderValue} {s : String}
    (hts : toStr? v = some s) (hsne : s ≠ "true") : v.bytes ≠ strBytes "true" := by
  intro hb
  apply hsne
  rw [toStr_some_eq hts, hb]
  decide

/-! ### Claim theorems -/

/-- A header set carrying a `Deprecation` value that is a single byte 255:
a legal `HeaderValue` (obs-text) that is not visible ASCII. -/
def hsByteDep : Headers := [("Deprecation", ⟨[255]⟩)]

/-- C1 is refuted: the header set `hsByteDep` has a `Deprecation` header, yet
the extraction returns an absent result, because the value's conversion to a
string fails on the main path (the `?` on `value.to_str().ok()`). -/
theorem deprecation_presence_counterexample :
    (getHeader hsByteDep HEADER_NAME).isSome = true ∧
      deprecation (fun _ => none) hsByteDep = none := by decide

/-- C1 (amended): the extraction returns a present record if and only if a
`Deprecation` header is present and its value either equals the bytes of
`"true"` or converts to a visible-ASCII string.  In particular an absent
header yields an absent result no matter what `Link` headers exist, and a
present header with a malformed but visible-ASCII value still yields a
present record. -/
theorem deprecation_present_iff (dateParse : String → Option Int) (hs : Headers) :
    (deprecation dateParse hs).isSome = true ↔
      ∃ v, getHeader hs HEADER_NAME = some v ∧
        (v.bytes = strBytes "true" ∨ (toStr? v).isSome = true) := by
  rw [deprecation_isSome_eq]
  cases hg : getHeader hs HEADER_NAME with
  | none => simp [presentCond]
  | some v => simp [presentCond]

/-- C4: if the `Deprecation` header's value is a string that is not `"true"`
and that the RFC 2822 date parser rejects, the extraction still returns a
present record with `timestamp = none`; the parse failure is not an error. -/
theorem deprecation_unparsable_value (dateParse : String → Option Int) (hs : Headers)
    (v : HeaderValue) (s : String)
    (hg : getHeader hs HEADER_NAME = some v) (hts : toStr? v = some s)
    (hsne : s ≠ "true") (hdp : dateParse s = none) :
    deprecation dateParse hs = some ⟨none, findLink (getAll hs "Link")⟩ := by
  have hvb := bytes_ne_true_of_str hts hsne
  simp [deprecation, hg, hvb, hts, hdp]

/-- C4 witness: the repository's own ISO 8601 example, with a date parser
that rejects everything. -/
theorem deprecation_unparsable_value_witness :
    deprecation (fun _ => none) [("Deprecation", hv "2021-01-01T10:00:13Z")]
      = some ⟨none, none⟩ :=
  (deprecation_unparsable_value (fun _ => none) [("Deprecation", hv "2021-01-01T10:00:13Z")]
      (hv "2021-01-01T10:00:13Z") "2021-01-01T10:00:13Z"
      (by decide) (by decide) (by decide) rfl).trans (by decide)

/-- C5: if the `Deprecation` header's value is a string (not `"true"`) that
the RFC 2822 date parser accepts with instant `t`, the extraction returns a
present record whose timestamp is exactly `some t`. -/
theorem deprecation_valid_date (dateParse : String → Option Int) (hs : Headers)
    (v : HeaderValue) (s : String) (t : Int)
    (hg : getHeader hs HEADER_NAME = some v) (hts : toStr? v = some s)
    (hsne : s ≠ "true") (hdp : dateParse s = some t) :
    deprecation dateParse hs = some ⟨some t, findLink (getAll hs "Link")⟩ := by
  have hvb := bytes_ne_true_of_str hts hsne
  simp [deprecation, hg, hvb, hts, hdp]

/-- C5 witness: the epoch example, with a date parser mapping the RFC 2822
rendering of the Unix epoch to instant 0. -/
theorem deprecation_valid_date_witness :
    deprecation (fun s => if s = "Thu, 01 Jan 1970 00:00:00 +0000" then some 0 else none)
        [("Deprecation", hv "Thu, 01 Jan 1970 00:00:00 +0000")]
      = some ⟨some 0, none⟩ :=
  (deprecation_valid_date (fun s => if s = "Thu, 01 Jan 1970 00:00:00 +0000" then some 0 else none)
      [("Deprecation", hv "Thu, 01 Jan 1970 00:00:00 +0000")]
      (hv "Thu, 01 Jan 1970 00:00:00 +0000") "Thu, 01 Jan 1970 00:00:00 +0000" 0
      (by decide) (by decide) (by decide) (by decide)).trans (by decide)

/-- C6: a `Deprecation` value whose bytes are exactly the ASCII string
`"true"` yields a present record with `timestamp = none`, for every date
parser whatsoever (so date parsing is never consulted); and the comparison
is case-sensitive: with value `"True"` the date parser is consulted and its
answer is used. -/
theorem deprecation_true_flag :
    (∀ (dateParse : String → Option Int) (hs : Headers) (v : HeaderValue),
        getHeader hs HEADER_NAME = some v → v.bytes = strBytes "true" →
        deprecation dateParse hs = some ⟨none, findLink (getAll hs "Link")⟩)
    ∧ deprecation (fun s => if s = "True" then some 42 else none)
        [("Deprecation", hv "True")] = some ⟨some 42, none⟩ := by
  constructor
  · intro dateParse hs v hg hb
    simp [deprecation, hg, hb]
  · decide

/-- C6 witness: `Deprecation: true` with a `Link` header, under a date
parser that rejects everything. -/
theorem deprecation_true_flag_witness :
    deprecation (fun _ => none)
        [("Deprecation", hv "true"), ("Link", hv "<a>; rel=\"deprecation\"")]
      = some ⟨none, some "a"⟩ :=
  (deprecation_true_flag.1 (fun _ => none)
      [("Deprecation", hv "true"), ("Link", hv "<a>; rel=\"deprecation\"")]
      (hv "true") (by decide) (by decide)).trans (by decide)

/-- C10: a `Link` value that cannot be converted to a string is skipped as a
non-match for that occurrence only (the scan continues with the rest), and
the presence of the extraction result depends only on the looked-up
`Deprecation` header — so no `Link` value can ever make the overall
extraction absent. -/
theorem link_value_conversion_skip :
    (∀ (v : HeaderValue) (rest : List HeaderValue),
        toStr? v = none → findLink (v :: rest) = findLink rest)
    ∧ (∀ (dateParse : String → Option Int) (hs hs2 : Headers),
        getHeader hs HEADER_NAME = getHeader hs2 HEADER_NAME →
        (deprecation dateParse hs).isSome = (deprecation dateParse hs2).isSome) := by
  constructor
  · intro v rest h
    simp [findLink, linkOf, h]
  · intro dateParse hs hs2 h
    rw [deprecation_isSome_eq, deprecation_isSome_eq, h]

/-- C10 witness: the byte-255 `Link` value is skipped in favour of a later
matching occurrence, and adding it to a header set does not change the
presence of the result. -/
theorem link_value_conversion_skip_witness :
    findLink [⟨[255]⟩, hv "<a>; rel=\"deprecation\""]
        = findLink [hv "<a>; rel=\"deprecation\""]
    ∧ (deprecation (fun _ => none) [("Deprecation", hv "true"), ("Link", ⟨[255]⟩)]).isSome
        = (deprecation (fun _ => none) [("Deprecation", hv "true")]).isSome :=
  ⟨link_value_conversion_skip.1 ⟨[255]⟩ [hv "<a>; rel=\"deprecation\""] (by decide),
   link_value_conversion_skip.2 (fun _ => none)
     [("Deprecation", hv "true"), ("Link", ⟨[255]⟩)]
     [("Deprecation", hv "true")] (by decide)⟩

/-- Characters that cannot interfere with the segment structure of a `Link`
value: not whitespace, not the `;` separator, not an angle bracket. -/
def plainChar (x : Char) : Bool :=
  !x.isWhitespace && x != ';' && x != '<' && x != '>'

theorem plainChar_spec {x : Char} (h : plainChar x = true) :
    x.isWhitespace = false ∧ x ≠ ';' ∧ x ≠ '<' ∧ x ≠ '>' := by
  simp only [plainChar, Bool.and_eq_true, Bool.not_eq_true', bne_iff_ne] at h
  tauto

/-- C2 is refuted: a first segment not wrapped in angle brackets is still
accepted as the URL, so the parser does match. -/
theorem parse_link_unwrapped_counterexample :
    parse_deprecation_link "U; rel=\"deprecation\"" = some "U" := by decide

/-- C2 (amended): the parser never rejects an input because of the first
segment's shape; it strips all leading `<` and all trailing `>` from the
trimmed first segment, so a `<`/`>`-wrapped URL has the delimiters stripped
and an unwrapped URL is passed through unchanged — both forms parse to the
same result. -/
theorem parse_link_angle_brackets (u t : List Char)
    (h : ∀ x ∈ u, plainChar x = true) :
    parse_deprecation_link (String.mk ('<' :: u ++ '>' :: ';' :: t))
        = Option.map String.mk (linkLoop u ((splitOnChar ';' t).map trimChars))
    ∧ parse_deprecation_link (String.mk (u ++ ';' :: t))
        = Option.map String.mk (linkLoop u ((splitOnChar ';' t).map trimChars)) := by
  have hw : ∀ x ∈ u, x.isWhitespace = false := fun x hx => (plainChar_spec (h x hx)).1
  have hsemi : (';' : Char) ∉ u := fun hm => (plainChar_spec (h ';' hm)).2.1 rfl
  have hlt : ∀ x ∈ u, (x == '<') = false :=
    fun x hx => beq_eq_false_iff_ne.mpr (plainChar_spec (h x hx)).2.2.1
  have hgt : ∀ x ∈ u, (x == '>') = false :=
    fun x hx => beq_eq_false_iff_ne.mpr (plainChar_spec (h x hx)).2.2.2
  have hstripu2 : trimEndMatches '>' u = u := by
    unfold trimEndMatches
    rw [dropWhile_eq_self_of_all u.reverse (fun x hx => hgt x (List.mem_reverse.mp hx)),
        List.reverse_reverse]
  constructor
  · have hshape : '<' :: u ++ '>' :: ';' :: t = ('<' :: (u ++ ['>'])) ++ ';' :: t := by
      simp
    have hmem : (';' : Char) ∉ '<' :: (u ++ ['>']) := by
      intro hm
      rcases List.mem_cons.mp hm with h1 | h2
      · exact absurd h1 (by decide)
      · rcases List.mem_append.mp h2 with h3 | h4
        · exact hsemi h3
        · exact absurd (List.mem_singleton.mp h4) (by decide)
    have hsplit : splitOnChar ';' ('<' :: u ++ '>' :: ';' :: t)
        = ('<' :: (u ++ ['>'])) :: splitOnChar ';' t := by
      rw [hshape]
      exact splitOnChar_sep ';' t ('<' :: (u ++ ['>'])) hmem
    have htrim : trimChars ('<' :: (u ++ ['>'])) = '<' :: (u ++ ['>']) := by
      apply trimChars_eq_self
      intro x hx
      rcases List.mem_cons.mp hx with h1 | h2
      · rw [h1]; decide
      · rcases List.mem_append.mp h2 with h3 | h4
        · exact hw x h3
        · rw [List.mem_singleton.mp h4]; decide
    have hstrip1 : trimStartMatches '<' ('<' :: (u ++ ['>'])) = u ++ ['>'] := by
      show (('<' :: (u ++ ['>'])).dropWhile fun x => x == '<') = u ++ ['>']
      rw [List.dropWhile_cons, if_pos (by decide)]
      apply dropWhile_eq_self_of_all
      intro x hx
      rcases List.mem_append.mp hx with h3 | h4
      · exact hlt x h3
      · rw [List.mem_singleton.mp h4]; decide
    have hstrip2 : trimEndMatches '>' (u ++ ['>']) = u := by
      unfold trimEndMatches
      rw [List.reverse_append]
      have hrev : (['>'] : List Char).reverse ++ u.reverse = '>' :: u.reverse := rfl
      rw [hrev, List.dropWhile_cons, if_pos (by decide),
          dropWhile_eq_self_of_all u.reverse (fun x hx => hgt x (List.mem_reverse.mp hx)),
          List.reverse_reverse]
    unfold parse_deprecation_link
    have hd : (String.mk ('<' :: u ++ '>' :: ';' :: t)).data = '<' :: u ++ '>' :: ';' :: t := rfl
    rw [hd, hsplit, List.map_cons, htrim]
    show (linkLoop (trimEndMatches '>' (trimStartMatches '<' ('<' :: (u ++ ['>']))))
        ((splitOnChar ';' t).map trimChars)).map String.mk
      = Option.map String.mk (linkLoop u ((splitOnChar ';' t).map trimChars))
    rw [hstrip1, hstrip2]
  · have hsplit : splitOnChar ';' (u ++ ';' :: t) = u :: splitOnChar ';' t :=
      splitOnChar_sep ';' t u hsemi
    have htrim : trimChars u = u := trimChars_eq_self hw
    have hstrip1 : trimStartMatches '<' u = u := dropWhile_eq_self_of_all u hlt
    unfold parse_deprecation_link
    have hd : (String.mk (u ++ ';' :: t)).data = u ++ ';' :: t := rfl
    rw [hd, hsplit, List.map_cons, htrim]
    show (linkLoop (trimEndMatches '>' (trimStartMatches '<' u))
        ((splitOnChar ';' t).map trimChars)).map String.mk
      = Option.map String.mk (linkLoop u ((splitOnChar ';' t).map trimChars))
    rw [hstrip1, hstripu2]

/-- C2 witness: the amended statement at the concrete URL `U` and parameter
tail `rel="deprecation"`, in both the wrapped and the unwrapped form. -/
theorem parse_link_angle_brackets_witness :
    parse_deprecation_link (String.mk ('<' :: "U".data ++ '>' :: ';' :: " rel=\"deprecation\"".data))
        = Option.map String.mk
            (linkLoop "U".data ((splitOnChar ';' " rel=\"deprecation\"".data).map trimChars))
    ∧ parse_deprecation_link (String.mk ("U".data ++ ';' :: " rel=\"deprecation\"".data))
        = Option.map String.mk
            (linkLoop "U".data ((splitOnChar ';' " rel=\"deprecation\"".data).map trimChars)) :=
  parse_link_angle_brackets "U".data " rel=\"deprecation\"".data (by decide)

/-- C3 is refuted: the segment `a=` splits into two parts on `=` with an
empty value, which the code tolerates — it does not abort, and the later
`rel="deprecation"` segment still produces a match. -/
theorem parse_link_empty_value_counterexample :
    parse_deprecation_link "<U>; a=; rel=\"deprecation\"" = some "U" := by decide

/-- C3 (amended): a parameter segment is split on every `=` and must yield
exactly two parts — a segment with no `=` or with more than one `=` aborts
the whole scan with no match (not a hard error) — but the two parts may be
empty: a well-formed segment that is not the `rel="deprecation"` pair is
merely skipped. -/
theorem linkLoop_param_splitting :
    (∀ (url p : List Char) (rest : List (List Char)),
        (splitOnChar '=' p).length ≠ 2 → linkLoop url (p :: rest) = none)
    ∧ (∀ (url k v p : List Char) (rest : List (List Char)),
        splitOnChar '=' p = [k, v] →
        ¬(k = "rel".data ∧ v = "\"deprecation\"".data) →
        linkLoop url (p :: rest) = linkLoop url rest) := by
  constructor
  · intro url p rest hlen
    simp only [linkLoop]
    cases hsp : splitOnChar '=' p with
    | nil => rfl
    | cons k tl =>
      cases tl with
      | nil => rfl
      | cons v tl2 =>
        cases tl2 with
        | nil => exact absurd (by rw [hsp]; rfl) hlen
        | cons w tl3 => rfl
  · intro url k v p rest hsp hm
    simp only [linkLoop]
    rw [hsp]
    exact if_neg hm

/-- C3 witness: a segment with no `=` aborts the scan; a well-formed but
non-`rel` segment (with empty value) is skipped. -/
theorem linkLoop_param_splitting_witness :
    linkLoop "u".data ["ab".data] = none
    ∧ linkLoop "u".data ["a=".data, "rel=\"deprecation\"".data]
        = linkLoop "u".data ["rel=\"deprecation\"".data] :=
  ⟨linkLoop_param_splitting.1 "u".data "ab".data [] (by decide),
   linkLoop_param_splitting.2 "u".data "a".data [] "a=".data
     ["rel=\"deprecation\"".data] (by decide) (by decide)⟩

/-- C7 is refuted: with a `Deprecation` header whose value is the byte 255
and two `Link` headers of which the second matches, the whole extraction is
absent — no record carrying the matched URL is returned. -/
def hsMultiLink : Headers :=
  [("Deprecation", ⟨[255]⟩),
   ("Link", hv "<a>; rel=\"alternate\""),
   ("Link", hv "<b>; rel=\"deprecation\"")]

/-- C7 counterexample theorem: the header set `hsMultiLink` contains a
`Deprecation` header and a matching second `Link` occurrence, yet the
extraction returns `none` rather than a record with that link. -/
theorem deprecation_link_counterexample :
    (getHeader hsMultiLink HEADER_NAME).isSome = true ∧
    findLink (getAll hsMultiLink "Link") = some "b" ∧
    deprecation (fun _ => none) hsMultiLink = none := by decide

/-- C7 (amended): provided the `Deprecation` value equals the bytes `"true"`
or converts to a string, the extraction returns a record whose
`deprecation_link` is the scan over all `Link` occurrences in order; that
scan takes the first occurrence the parser matches, skipping any number of
non-matching ones, and yields `none` when no occurrence matches. -/
theorem deprecation_link_first_match :
    (∀ (dateParse : String → Option Int) (hs : Headers) (v : HeaderValue),
        getHeader hs HEADER_NAME = some v →
        (v.bytes = strBytes "true" ∨ (toStr? v).isSome = true) →
        ∃ d, deprecation dateParse hs = some d ∧
          d.deprecation_link = findLink (getAll hs "Link"))
    ∧ (∀ (pre : List HeaderValue) (v : HeaderValue) (post : List HeaderValue) (u : String),
        (∀ w ∈ pre, linkOf w = none) → linkOf v = some u →
        findLink (pre ++ v :: post) = some u)
    ∧ (∀ vs : List HeaderValue, (∀ w ∈ vs, linkOf w = none) → findLink vs = none) := by
  refine ⟨?_, ?_, ?_⟩
  · intro dateParse hs v hg hb
    rcases hb with hb | hb
    · exact ⟨⟨none, findLink (getAll hs "Link")⟩, by simp [deprecation, hg, hb], rfl⟩
    · rcases Option.isSome_iff_exists.mp hb with ⟨s, hts⟩
      by_cases htrue : v.bytes = strBytes "true"
      · exact ⟨⟨none, findLink (getAll hs "Link")⟩, by simp [deprecation, hg, htrue], rfl⟩
      · exact ⟨⟨dateParse s, findLink (getAll hs "Link")⟩,
          by simp [deprecation, hg, htrue, hts], rfl⟩
  · intro pre
    induction pre with
    | nil =>
      intro v post u hpre hv2
      simp [findLink, hv2]
    | cons w ws ih =>
      intro v post u hpre hv2
      have hw : linkOf w = none := hpre w (List.mem_cons_self w ws)
      show findLink (w :: (ws ++ v :: post)) = some u
      simp only [findLink, hw]
      exact ih v post u (fun q hq => hpre q (List.mem_cons_of_mem w hq)) hv2
  · intro vs hall
    induction vs with
    | nil => rfl
    | cons w ws ih =>
      have hw : linkOf w = none := hall w (List.mem_cons_self w ws)
      simp only [findLink, hw]
      exact ih (fun q hq => hall q (List.mem_cons_of_mem w hq))

/-- C7 witness: the amended statement at concrete inputs — a present record
with the scanned link, a first-match scan that skips a non-convertible
occurrence, and an all-miss scan yielding `none`. -/
theorem deprecation_link_first_match_witness :
    (∃ d, deprecation (fun _ => none) [("Deprecation", hv "true")] = some d ∧
        d.deprecation_link = findLink (getAll [("Deprecation", hv "true")] "Link"))
    ∧ findLink [⟨[255]⟩, hv "<b>; rel=\"deprecation\"", hv "<c>; rel=\"deprecation\""]
        = some "b"
    ∧ findLink [hv "<a>; rel=\"alternate\""] = none :=
  ⟨deprecation_link_first_match.1 (fun _ => none) [("Deprecation", hv "true")]
      (hv "true") (by decide) (Or.inl (by decide)),
   deprecation_link_first_match.2.1 [⟨[255]⟩] (hv "<b>; rel=\"deprecation\"")
      [hv "<c>; rel=\"deprecation\""] "b" (by decide) (by decide),
   deprecation_link_first_match.2.2 [hv "<a>; rel=\"alternate\""] (by decide)⟩

/-- C8: the scanning loop returns only the URL it was given; over well-formed
parameter segments it succeeds exactly when some segment splits into the key
`rel` and the literal quoted value `"deprecation"`, wherever that segment
sits; concretely, `rel` before or after `type` both match, and an unquoted
`rel=deprecation` does not. -/
theorem linkLoop_rel_characterization :
    (∀ (url : List Char) (params : List (List Char)) (r : List Char),
        linkLoop url params = some r → r = url)
    ∧ (∀ (url : List Char) (params : List (List Char)),
        (∀ p ∈ params, (splitOnChar '=' p).length = 2) →
        (linkLoop url params = some url ↔
          ∃ p ∈ params, splitOnChar '=' p = ["rel".data, "\"deprecation\"".data]))
    ∧ parse_deprecation_link "<U>; rel=\"deprecation\"; type=\"text/html\"" = some "U"
    ∧ parse_deprecation_link "<U>; type=\"text/html\"; rel=\"deprecation\"" = some "U"
    ∧ parse_deprecation_link "<U>; rel=deprecation" = none := by
  refine ⟨?_, ?_, by decide, by decide, by decide⟩
  · intro url params
    induction params with
    | nil => intro r h; exact Option.noConfusion h
    | cons p ps ih =>
      intro r h
      simp only [linkLoop] at h
      cases hsp : splitOnChar '=' p with
      | nil => rw [hsp] at h; exact Option.noConfusion h
      | cons k tl =>
        cases tl with
        | nil => rw [hsp] at h; exact Option.noConfusion h
        | cons v tl2 =>
          cases tl2 with
          | nil =>
            rw [hsp] at h
            change (if k = "rel".data ∧ v = "\"deprecation\"".data then some url
                else linkLoop url ps) = some r at h
            by_cases hm : k = "rel".data ∧ v = "\"deprecation\"".data
            · rw [if_pos hm] at h
              exact (Option.some.inj h).symm
            · rw [if_neg hm] at h
              exact ih r h
          | cons w tl3 => rw [hsp] at h; exact Option.noConfusion h
  · intro url params
    induction params with
    | nil =>
      intro hall
      simp [linkLoop]
    | cons p ps ih =>
      intro hall
      have hp2 : (splitOnChar '=' p).length = 2 := hall p (List.mem_cons_self p ps)
      rcases List.length_eq_two.mp hp2 with ⟨k, v, hkv⟩
      have hrest : ∀ q ∈ ps, (splitOnChar '=' q).length = 2 :=
        fun q hq => hall q (List.mem_cons_of_mem p hq)
      constructor
      · intro h
        simp only [linkLoop] at h
        rw [hkv] at h
        change (if k = "rel".data ∧ v = "\"deprecation\"".data then some url
            else linkLoop url ps) = some url at h
        by_cases hm : k = "rel".data ∧ v = "\"deprecation\"".data
        · exact ⟨p, List.mem_cons_self p ps, by rw [hkv, hm.1, hm.2]⟩
        · rw [if_neg hm] at h
          rcases (ih hrest).mp h with ⟨q, hq, hql⟩
          exact ⟨q, List.mem_cons_of_mem p hq, hql⟩
      · intro hex
        rcases hex with ⟨q, hq, hql⟩
        rcases List.mem_cons.mp hq with hq1 | hq2
        · subst hq1
          simp only [linkLoop]
          rw [hql]
          change (if ("rel".data : List Char) = "rel".data
              ∧ ("\"deprecation\"".data : List Char) = "\"deprecation\"".data
              then some url else linkLoop url ps) = some url
          rw [if_pos ⟨rfl, rfl⟩]
        · simp only [linkLoop]
          rw [hkv]
          change (if k = "rel".data ∧ v = "\"deprecation\"".data then some url
              else linkLoop url ps) = some url
          by_cases hm : k = "rel".data ∧ v = "\"deprecation\"".data
          · rw [if_pos hm]
          · rw [if_neg hm]
            exact (ih hrest).mpr ⟨q, hq2, hql⟩

/-- C8 witness: the characterization at a concrete one-segment parameter
list, and the only-the-given-URL property at a concrete match. -/
theorem linkLoop_rel_characterization_witness :
    (linkLoop "u".data ["rel=\"deprecation\"".data] = some "u".data ↔
        ∃ p ∈ [("rel=\"deprecation\"".data : List Char)],
          splitOnChar '=' p = ["rel".data, "\"deprecation\"".data])
    ∧ "u".data = "u".data :=
  ⟨linkLoop_rel_characterization.2.1 "u".data ["rel=\"deprecation\"".data] (by decide),
   linkLoop_rel_characterization.1 "u".data ["rel=\"deprecation\"".data] "u".data (by decide)⟩

/-- C9 is refuted in its literal reading: an input ending in a trailing `;`
can still produce a match when a `rel="deprecation"` segment precedes the
empty trailing segment (this mirrors the repository's own
`parse_link_header_different_order` test). -/
theorem parse_link_trailing_semicolon_counterexample :
    parse_deprecation_link "<u>; rel=\"deprecation\";" = some "u" := by decide

/-- C9 (amended): the parser is a total function and a trailing `;` never
causes a crash: appending `;` (which appends an empty trailing segment)
never changes the result of the parse, and the empty segment itself can
never match — when the scan reaches it, the scan ends with no match. -/
theorem parse_link_trailing_semicolon :
    (∀ s : String,
        parse_deprecation_link (String.mk (s.data ++ [';'])) = parse_deprecation_link s)
    ∧ (∀ (url : List Char) (rest : List (List Char)), linkLoop url ([] :: rest) = none) := by
  constructor
  · intro s
    unfold parse_deprecation_link
    have hd : (String.mk (s.data ++ [';'])).data = s.data ++ [';'] := rfl
    rw [hd, splitOnChar_append_last ';' s.data]
    cases hsp : splitOnChar ';' s.data with
    | nil => exact absurd hsp (splitOnChar_ne_nil ';' s.data)
    | cons f r =>
      have ht : trimChars [] = [] := rfl
      simp only [List.map_append, List.map_cons, List.map_nil, ht]
      show (linkLoop (trimEndMatches '>' (trimStartMatches '<' (trimChars f)))
          (r.map trimChars ++ [[]])).map String.mk
        = (linkLoop (trimEndMatches '>' (trimStartMatches '<' (trimChars f)))
          (r.map trimChars)).map String.mk
      rw [linkLoop_append_nil]
  · intro url rest
    rfl

end ReqwestDeprecation
